import Mathlib

/-!
Verification development for the permutation-index decoding and chunked
enumeration engine of src/Bruteforce_password_generator.py.

The decoder (decode_permutation_kernel) is embedded as a pure function of
(n, r, global index); machine state (the local used array) becomes an
explicit List Bool, and the unguarded inner while-loop becomes a scan that
returns Option Nat (none models the loop running past the tracked entries,
which in the source is an out-of-bounds read of the local array).
The pipeline (generate_permutations_gpu) is embedded as a transformer on
the output sink, modelled as the list of lines written so far.
-/

/-- Module-level configuration: the character set CHARS of the generator. -/
def CHARS : List Char :=
  "abcefghijklmnopqrstuvwxyzABCDEFGHIJKLMNOPQRSTUVWXYZ1234567890".toList

/-- Module-level configuration: CHUNK_SIZE = 10_000_000. -/
def CHUNK_SIZE : Nat := 10000000

/-- Module-level configuration: min_len = 1. -/
def min_len : Nat := 1

/-- Module-level configuration: max_len = 10. -/
def max_len : Nat := 10

/-- The kernel hard-codes threads_per_block = 256 inside
generate_permutations_gpu; we keep it as a parameter of the pipeline
embedding (the spec calls it the parallel-width knob) and use this
constant for the source's actual value. -/
def threads_per_block : Nat := 256

/-- Capacity of the kernel's local used array:
used = cuda.local.array(63, types.boolean). Valid indices are 0..62. -/
def usedCapacity : Nat := 63

/-- permutations_count(n, r):
total = 1; for i in range(r): total *= (n - i); return total.
Python ints are unbounded and every factor n - i is nonnegative for r <= n,
so Nat arithmetic is exact there; for r > n both the Python product and
this Nat-truncated product are 0 (the factor at i = n is 0). -/
def permutations_count (n r : Nat) : Nat :=
  (List.range r).foldl (fun total i => total * (n - i)) 1

/-- The perms_of_rest loop of the kernel at one output position:
perms_of_rest = 1; for k in range(remaining - 1, remaining - slots, -1):
perms_of_rest *= k, where slots = r - position.  The Python range steps
down from remaining - 1 and has slots - 1 elements, i.e. element j is
remaining - 1 - j; all elements are positive whenever remaining >= slots,
which holds at every reachable call with r <= n, so Nat subtraction is
exact there. -/
def permsOfRest (remaining slots : Nat) : Nat :=
  (List.range (slots - 1)).foldl (fun acc j => acc * (remaining - 1 - j)) 1

/-- The kernel's unguarded inner scan:
found_count = 0; char_idx = 0;
while True: if not used[char_idx]: (select when found_count == choice else
found_count += 1); char_idx += 1.
This returns the index of the choice-th False entry of used, scanning from
index 0.  none models the case where fewer than choice + 1 entries are
False: the source loop would then read past the initialized entries of its
fixed-capacity local array. -/
def scanUnused : List Bool → Nat → Option Nat
  | [], _ => none
  | b :: rest, choice =>
    if b then (scanUnused rest choice).map (fun k => k + 1)
    else if choice = 0 then some 0
    else (scanUnused rest (choice - 1)).map (fun k => k + 1)

/-- The position loop of decode_permutation_kernel, with the loop counter
replaced by slots = r - position (so remaining, slots both step down).
State: used array, cur_index, slots still to fill, remaining counter.
Returns the emitted alphabet positions in order, or none if some scan ran
out of entries (out-of-bounds in the source). -/
def decodeAux : List Bool → Nat → Nat → Nat → Option (List Nat)
  | _, _, 0, _ => some []
  | used, cur, s + 1, remaining =>
    match scanUnused used (cur / permsOfRest remaining (s + 1)) with
    | none => none
    | some idx =>
      (decodeAux (used.set idx true) (cur % permsOfRest remaining (s + 1)) s
        (remaining - 1)).map (fun l => idx :: l)

/-- decode_permutation_kernel viewed as a pure function of (n, r, i):
used[0..n-1] initialized to False, cur_index = i, remaining = n, then the
position loop.  The source writes the result row into results[thread_id];
here the row is the returned list. -/
def decode_permutation_kernel (n r i : Nat) : Option (List Nat) :=
  decodeAux (List.replicate n false) i r n

/-- The decoded row as a plain list (the kernel always succeeds on valid
input; see the termination claim). -/
def decode (n r i : Nat) : List Nat :=
  (decode_permutation_kernel n r i).getD []

/-- Modelled from the spec: one step of the decoding algorithm of spec
section 4.1 on the ascending list of currently unused alphabet positions.
perms_of_rest is the falling factorial
(remaining - 1) * (remaining - 2) * ... * (remaining - (slots - 1))
written with Mathlib's Nat.descFactorial; the choice-th unused symbol in
ascending alphabet order is element choice of avail, which is then removed
(marked used). -/
def specDecodeAux : List Nat → Nat → Nat → Option (List Nat)
  | _, 0, _ => some []
  | avail, s + 1, cur =>
    match avail.get? (cur / (avail.length - 1).descFactorial s) with
    | none => none
    | some x =>
      (specDecodeAux (avail.eraseIdx (cur / (avail.length - 1).descFactorial s)) s
        (cur % (avail.length - 1).descFactorial s)).map (fun l => x :: l)

/-- Modelled from the spec: the full decoding algorithm of spec section
4.1, starting with all n symbols unused (avail = 0, 1, ..., n-1 in
ascending alphabet order). -/
def specDecode (n r i : Nat) : Option (List Nat) :=
  specDecodeAux (List.range n) r i

/-- Modelled from the spec: the encoder obtained by running the decoding
algorithm in reverse (spec sections 4.1 and 8): recover each position's
choice as the rank of the emitted symbol among the then-unused symbols and
accumulate choice * perms_of_rest; the emitted symbol then stops being
unused. -/
def rankAux : List Nat → List Nat → Nat
  | _, [] => 0
  | avail, x :: rest =>
    (avail.indexOf x) * ((avail.length - 1).descFactorial rest.length) +
      rankAux (avail.erase x) rest

/-- Modelled from the spec: encode a decoded permutation back to its
global index, starting from the full unused alphabet. -/
def encode (n : Nat) (perm : List Nat) : Nat :=
  rankAux (List.range n) perm

/-- The ascending list of indices of False entries of a used array:
exactly the unused alphabet positions, in ascending alphabet order. -/
def unusedIndices : List Bool → List Nat
  | [] => []
  | b :: rest =>
    (if b then [] else [0]) ++ (unusedIndices rest).map (fun k => k + 1)

/-- Number of used-array cells the inner scan touches: the loop reads
cells 0..idx when it selects index idx.  When the scan fails, the source
loop reads on past every tracked cell; we record the tracked cells it
certainly reads. -/
def scanAccessCount (used : List Bool) (choice : Nat) : Nat :=
  match scanUnused used choice with
  | some idx => idx + 1
  | none => used.length

/-- All indices into the used array accessed by the position loop. -/
def decodeAccessesAux : List Bool → Nat → Nat → Nat → List Nat
  | _, _, 0, _ => []
  | used, cur, s + 1, remaining =>
    List.range (scanAccessCount used (cur / permsOfRest remaining (s + 1))) ++
      (match scanUnused used (cur / permsOfRest remaining (s + 1)) with
       | none => []
       | some idx =>
         decodeAccessesAux (used.set idx true) (cur % permsOfRest remaining (s + 1)) s
           (remaining - 1))

/-- All indices into the fixed-capacity used array accessed by one kernel
invocation: the initialization loop for i in range(n): used[i] = False
touches 0..n-1, then the position loop's scans. -/
def decodeAccesses (n r i : Nat) : List Nat :=
  List.range n ++ decodeAccessesAux (List.replicate n false) i r n

/-- blocks = (current_chunk_size + threads_per_block - 1) // threads_per_block. -/
def blocksFor (size tpb : Nat) : Nat := (size + tpb - 1) / tpb

/-- One kernel launch over a chunk: the grid has blocksFor size tpb * tpb
threads; thread tid computes global_idx = base_idx + tid and returns
without writing when tid >= size (the guard global_idx >= base_idx +
results.shape[0]).  Row j of the result array is written by thread j when
the grid covers it; an uncovered row stays uninitialized, modelled none. -/
def runKernelChunk (n r offset size tpb : Nat) : List (Option (List Nat)) :=
  (List.range size).map (fun j =>
    if j < blocksFor size tpb * tpb then decode_permutation_kernel n r (offset + j)
    else none)

/-- perm_str = "".join(CHARS[idx] for idx in perm_indices).  Indexing is
total here via getD; under the pipeline's reachable inputs every decoded
index is < cs.length (proved below), so the default is never consulted.
A none row (uninitialized in the source) maps to the empty line. -/
def permString (cs : List Char) (row : Option (List Nat)) : String :=
  match row with
  | some perm => String.mk (perm.map (fun idx => cs.getD idx ' '))
  | none => ""

/-- The lines produced by one chunk, in row order. -/
def chunkLines (cs : List Char) (r offset size tpb : Nat) : List String :=
  (runKernelChunk cs.length r offset size tpb).map (permString cs)

/-- The per-row write loop: f_out.write(perm_str + newline) for each row in
order.  The sink is modelled as the list of lines written so far. -/
def writeLines (file lines : List String) : List String :=
  lines.foldl (fun acc s => acc ++ [s]) file

/-- The chunking loop: current_offset = 0; while current_offset < total:
current_chunk_size = min(chunk_size, total - current_offset); process;
current_offset += current_chunk_size.  Returns the (offset, size) pairs in
order.  When min(chunk_size, total - offset) = 0 (only possible for
chunk_size = 0) the source loop never advances and runs forever; this
total model returns the chunks produced so far instead, and every claim
about the pipeline assumes a positive chunk size. -/
def chunkOffsets (chunk total offset : Nat) : List (Nat × Nat) :=
  if _h : offset < total then
    if _hs : 0 < min chunk (total - offset) then
      (offset, min chunk (total - offset)) ::
        chunkOffsets chunk total (offset + min chunk (total - offset))
    else []
  else []
termination_by total - offset
decreasing_by omega

/-- generate_permutations_gpu(r, print_flag, chunk_size) as a transformer
of the output sink: total_perms = permutations_count(n, r) with n the
alphabet size, the file is opened in append mode, and each chunk's rows
are decoded, stringified and appended in order.  print_flag only writes to
the console, never to the sink, so it is omitted; tpb is the
threads_per_block constant kept as a parameter. -/
def generate_permutations_gpu (cs : List Char) (r chunk tpb : Nat)
    (file : List String) : List String :=
  (chunkOffsets chunk (permutations_count cs.length r) 0).foldl
    (fun f os => writeLines f (chunkLines cs r os.1 os.2 tpb)) file

/-- The lines one run appends to an initially empty sink. -/
def outputLines (cs : List Char) (r chunk tpb : Nat) : List String :=
  generate_permutations_gpu cs r chunk tpb []

/-- The configuration-error kind named by the spec's error-handling
design (spec section 7). -/
inductive ConfigurationError where
  | invalidLengthRange
  | alphabetTooLarge
  | nonPositiveChunkSize
deriving DecidableEq, Repr

/-- The observable outcome of one call to generate_permutations_gpu:
either a raised configuration error or the final sink contents.  The
source performs no configuration validation anywhere (neither in
generate_permutations_gpu nor in the main block), so no path constructs an
error value: the call always returns normally. -/
def generate_permutations_run (cs : List Char) (r chunk tpb : Nat)
    (file : List String) : Except ConfigurationError (List String) :=
  Except.ok (generate_permutations_gpu cs r chunk tpb file)

/-! ### Arithmetic bridges: the source's product loops are falling factorials -/

theorem permutations_count_succ (n r : Nat) :
    permutations_count n (r + 1) = permutations_count n r * (n - r) := by
  simp [permutations_count, List.range_succ]

theorem permutations_count_eq_descFactorial (n r : Nat) :
    permutations_count n r = Nat.descFactorial n r := by
  induction r with
  | zero => rfl
  | succ r ih =>
    rw [permutations_count_succ, ih, Nat.descFactorial_succ, Nat.mul_comm]

theorem permsOfRest_eq_descFactorial (remaining s : Nat) :
    permsOfRest remaining (s + 1) = Nat.descFactorial (remaining - 1) s := by
  induction s with
  | zero => rfl
  | succ s ih =>
    have hstep : permsOfRest remaining (s + 1 + 1)
        = permsOfRest remaining (s + 1) * (remaining - 1 - s) := by
      show (List.range (s + 1)).foldl (fun acc j => acc * (remaining - 1 - j)) 1
          = (List.range s).foldl (fun acc j => acc * (remaining - 1 - j)) 1
            * (remaining - 1 - s)
      rw [List.range_succ, List.foldl_append]
      rfl
    rw [hstep, ih, Nat.descFactorial_succ]
    exact Nat.mul_comm _ _

theorem descFactorial_pos {n k : Nat} (h : k ≤ n) : 0 < Nat.descFactorial n k := by
  rcases Nat.eq_zero_or_pos (Nat.descFactorial n k) with h0 | h0
  · exact absurd (Nat.descFactorial_eq_zero_iff_lt.mp h0) (Nat.not_lt.mpr h)
  · exact h0

/-! ### The inner scan selects from the ascending list of unused positions -/

theorem scanUnused_eq_get? (used : List Bool) :
    ∀ choice, scanUnused used choice = (unusedIndices used).get? choice := by
  induction used with
  | nil => intro choice; rfl
  | cons b rest ih =>
    intro choice
    cases b with
    | true => simp [scanUnused, unusedIndices, ih choice, List.get?_map]
    | false =>
      cases choice with
      | zero => simp [scanUnused, unusedIndices]
      | succ c => simp [scanUnused, unusedIndices, ih c, List.get?_map]

theorem eraseIdx_map (f : Nat → Nat) :
    ∀ (l : List Nat) (i : Nat), (l.map f).eraseIdx i = (l.eraseIdx i).map f := by
  intro l
  induction l with
  | nil => intro i; rfl
  | cons a t ih =>
    intro i
    cases i with
    | zero => rfl
    | succ i => simp [List.eraseIdx_cons_succ, ih i]

theorem unusedIndices_set (used : List Bool) :
    ∀ choice idx, scanUnused used choice = some idx →
      unusedIndices (used.set idx true) = (unusedIndices used).eraseIdx choice := by
  induction used with
  | nil => intro choice idx h; simp [scanUnused] at h
  | cons b rest ih =>
    intro choice idx h
    cases b with
    | true =>
      rw [show scanUnused (true :: rest) choice
            = (scanUnused rest choice).map (fun k => k + 1) from rfl] at h
      rcases Option.map_eq_some'.mp h with ⟨k, hk, hidx⟩
      subst hidx
      rw [show (true :: rest).set (k + 1) true = true :: rest.set k true from rfl]
      show (unusedIndices (rest.set k true)).map (fun k => k + 1)
          = ((unusedIndices rest).map (fun k => k + 1)).eraseIdx choice
      rw [ih choice k hk, eraseIdx_map]
    | false =>
      cases choice with
      | zero =>
        have hidx : idx = 0 := by
          rw [show scanUnused (false :: rest) 0 = some 0 from rfl] at h
          cases h
          rfl
        subst hidx
        rw [show (false :: rest).set 0 true = true :: rest from rfl]
        rfl
      | succ c =>
        rw [show scanUnused (false :: rest) (c + 1)
              = (scanUnused rest c).map (fun k => k + 1) from rfl] at h
        rcases Option.map_eq_some'.mp h with ⟨k, hk, hidx⟩
        subst hidx
        rw [show (false :: rest).set (k + 1) true = false :: rest.set k true from rfl]
        show 0 :: (unusedIndices (rest.set k true)).map (fun k => k + 1)
            = (0 :: (unusedIndices rest).map (fun k => k + 1)).eraseIdx (c + 1)
        rw [List.eraseIdx_cons_succ, ih c k hk, eraseIdx_map]

theorem mem_unusedIndices_lt (used : List Bool) :
    ∀ x ∈ unusedIndices used, x < used.length := by
  induction used with
  | nil => intro x hx; simp [unusedIndices] at hx
  | cons b rest ih =>
    intro x hx
    simp only [unusedIndices, List.mem_append, List.mem_map] at hx
    rcases hx with hx | ⟨y, hy, rfl⟩
    · cases b with
      | true => simp at hx
      | false =>
        simp at hx
        subst hx
        simp
    · have := ih y hy
      simp only [List.length_cons]
      omega

theorem unusedIndices_replicate_false (n : Nat) :
    unusedIndices (List.replicate n false) = List.range n := by
  induction n with
  | zero => rfl
  | succ n ih =>
    rw [List.replicate_succ]
    simp only [unusedIndices, ih, List.nil_append]
    rw [List.range_succ_eq_map]
    rfl

/-! ### The kernel loop is the spec algorithm on the unused-position list -/

theorem decodeAux_eq_specDecodeAux :
    ∀ (s : Nat) (used : List Bool) (cur : Nat),
      decodeAux used cur s (unusedIndices used).length
        = specDecodeAux (unusedIndices used) s cur := by
  intro s
  induction s with
  | zero => intro used cur; rfl
  | succ s ih =>
    intro used cur
    simp only [decodeAux, specDecodeAux, permsOfRest_eq_descFactorial,
      scanUnused_eq_get? used]
    cases hg : (unusedIndices used).get?
        (cur / Nat.descFactorial ((unusedIndices used).length - 1) s) with
    | none => rfl
    | some idx =>
      have hlt : cur / Nat.descFactorial ((unusedIndices used).length - 1) s
          < (unusedIndices used).length := (List.get?_eq_some.mp hg).1
      have hscan : scanUnused used
          (cur / Nat.descFactorial ((unusedIndices used).length - 1) s) = some idx := by
        rw [scanUnused_eq_get? used, hg]
      have hset := unusedIndices_set used _ idx hscan
      have hlen : (unusedIndices (used.set idx true)).length
          = (unusedIndices used).length - 1 := by
        rw [hset, List.length_eraseIdx, if_pos hlt]
      have hrec := ih (used.set idx true)
          (cur % Nat.descFactorial ((unusedIndices used).length - 1) s)
      rw [hlen, hset] at hrec
      exact congrArg (Option.map (fun l => idx :: l)) hrec

theorem decode_kernel_eq_specDecode (n r i : Nat) :
    decode_permutation_kernel n r i = specDecode n r i := by
  rw [decode_permutation_kernel, specDecode]
  have h1 : unusedIndices (List.replicate n false) = List.range n :=
    unusedIndices_replicate_false n
  have h2 : (List.replicate n false).length = n := List.length_replicate n false
  have := decodeAux_eq_specDecodeAux r (List.replicate n false) i
  rw [h1, List.length_range] at this
  rw [← this]

/-! ### Shape, success, round trip and ordering of the spec algorithm -/

theorem specDecodeAux_succ_of_get (avail : List Nat) (s cur x : Nat)
    (hg : avail.get? (cur / (avail.length - 1).descFactorial s) = some x) :
    specDecodeAux avail (s + 1) cur
      = (specDecodeAux (avail.eraseIdx (cur / (avail.length - 1).descFactorial s)) s
          (cur % (avail.length - 1).descFactorial s)).map (fun l => x :: l) := by
  simp only [specDecodeAux]
  rw [hg]

theorem specDecodeAux_succ_of_get_none (avail : List Nat) (s cur : Nat)
    (hg : avail.get? (cur / (avail.length - 1).descFactorial s) = none) :
    specDecodeAux avail (s + 1) cur = none := by
  simp only [specDecodeAux]
  rw [hg]

theorem specDecodeAux_length :
    ∀ (s : Nat) (avail : List Nat) (cur : Nat) (l : List Nat),
      specDecodeAux avail s cur = some l → l.length = s := by
  intro s
  induction s with
  | zero => intro avail cur l h; cases h; rfl
  | succ s ih =>
    intro avail cur l h
    cases hg : avail.get? (cur / (avail.length - 1).descFactorial s) with
    | none => rw [specDecodeAux_succ_of_get_none avail s cur hg] at h; cases h
    | some x =>
      rw [specDecodeAux_succ_of_get avail s cur x hg] at h
      rcases Option.map_eq_some'.mp h with ⟨l', hl', rfl⟩
      simp [ih _ _ _ hl']

theorem specDecodeAux_isSome :
    ∀ (s : Nat) (avail : List Nat) (cur : Nat), s ≤ avail.length →
      cur < Nat.descFactorial avail.length s →
      ∃ l, specDecodeAux avail s cur = some l := by
  intro s
  induction s with
  | zero => intro avail cur _ _; exact ⟨[], rfl⟩
  | succ s ih =>
    intro avail cur hs hcur
    have hpos : 0 < avail.length := Nat.lt_of_lt_of_le (Nat.succ_pos s) hs
    have hsub : s ≤ avail.length - 1 := by omega
    have hpor : 0 < (avail.length - 1).descFactorial s := descFactorial_pos hsub
    have hmul : cur < avail.length * (avail.length - 1).descFactorial s := by
      have hexp : Nat.descFactorial avail.length (s + 1)
          = avail.length * (avail.length - 1).descFactorial s := by
        have h1 : avail.length - 1 + 1 = avail.length := Nat.succ_pred_eq_of_pos hpos
        have h2 := Nat.succ_descFactorial_succ (avail.length - 1) s
        rw [h1] at h2
        exact h2
      rw [hexp] at hcur
      exact hcur
    have hchoice : cur / (avail.length - 1).descFactorial s < avail.length :=
      (Nat.div_lt_iff_lt_mul hpor).mpr hmul
    have hget : avail.get? (cur / (avail.length - 1).descFactorial s)
        = some (avail.get ⟨cur / (avail.length - 1).descFactorial s, hchoice⟩) :=
      List.get?_eq_get hchoice
    have hlen' : (avail.eraseIdx (cur / (avail.length - 1).descFactorial s)).length
        = avail.length - 1 := by
      rw [List.length_eraseIdx, if_pos hchoice]
    have hcur' : cur % (avail.length - 1).descFactorial s
        < Nat.descFactorial (avail.eraseIdx (cur / (avail.length - 1).descFactorial s)).length s := by
      rw [hlen']
      exact Nat.mod_lt _ hpor
    rcases ih (avail.eraseIdx (cur / (avail.length - 1).descFactorial s))
        (cur % (avail.length - 1).descFactorial s) (by omega) hcur' with ⟨l', hl'⟩
    refine ⟨avail.get ⟨cur / (avail.length - 1).descFactorial s, hchoice⟩ :: l', ?_⟩
    rw [specDecodeAux_succ_of_get avail s cur _ hget, hl']
    rfl

theorem get?_not_mem_eraseIdx (l : List Nat) :
    ∀ (i x : Nat), l.Nodup → l.get? i = some x → x ∉ l.eraseIdx i := by
  induction l with
  | nil => intro i x _ h; cases h
  | cons a t ih =>
    intro i x hnd h
    cases i with
    | zero =>
      cases h
      simp only [List.eraseIdx_cons_zero]
      exact (List.nodup_cons.mp hnd).1
    | succ i =>
      have h' : t.get? i = some x := h
      have hxt : x ∈ t := List.get?_mem h'
      rcases List.nodup_cons.mp hnd with ⟨ha, hndt⟩
      simp only [List.eraseIdx_cons_succ, List.mem_cons, not_or]
      exact ⟨fun hxa => ha (hxa ▸ hxt), ih i x hndt h'⟩

theorem specDecodeAux_mem_nodup :
    ∀ (s : Nat) (avail : List Nat) (cur : Nat) (l : List Nat),
      specDecodeAux avail s cur = some l →
      (∀ x ∈ l, x ∈ avail) ∧ (avail.Nodup → l.Nodup) := by
  intro s
  induction s with
  | zero =>
    intro avail cur l h
    cases h
    exact ⟨(fun x hx => absurd hx (List.not_mem_nil x)), fun _ => List.nodup_nil⟩
  | succ s ih =>
    intro avail cur l h
    cases hg : avail.get? (cur / (avail.length - 1).descFactorial s) with
    | none => rw [specDecodeAux_succ_of_get_none avail s cur hg] at h; cases h
    | some x =>
      rw [specDecodeAux_succ_of_get avail s cur x hg] at h
      rcases Option.map_eq_some'.mp h with ⟨l', hl', rfl⟩
      rcases ih _ _ _ hl' with ⟨hmem, hnodup⟩
      constructor
      · intro y hy
        rcases List.mem_cons.mp hy with rfl | hy'
        · exact List.get?_mem hg
        · exact (List.eraseIdx_sublist avail _).subset (hmem y hy')
      · intro hnd
        refine List.nodup_cons.mpr ⟨?_, hnodup (hnd.sublist (List.eraseIdx_sublist avail _))⟩
        intro hx
        exact get?_not_mem_eraseIdx avail _ x hnd hg (hmem x hx)

theorem rankAux_specDecodeAux :
    ∀ (s : Nat) (avail : List Nat) (cur : Nat) (l : List Nat),
      avail.Nodup → s ≤ avail.length → cur < Nat.descFactorial avail.length s →
      specDecodeAux avail s cur = some l → rankAux avail l = cur := by
  intro s
  induction s with
  | zero =>
    intro avail cur l _ _ hcur h
    cases h
    have hc1 : cur < 1 := hcur
    simp only [rankAux]
    omega
  | succ s ih =>
    intro avail cur l hnd hs hcur h
    have hpos : 0 < avail.length := Nat.lt_of_lt_of_le (Nat.succ_pos s) hs
    have hsub : s ≤ avail.length - 1 := by omega
    have hpor : 0 < (avail.length - 1).descFactorial s := descFactorial_pos hsub
    have hmul : cur < avail.length * (avail.length - 1).descFactorial s := by
      have h1 : avail.length - 1 + 1 = avail.length := Nat.succ_pred_eq_of_pos hpos
      have h2 := Nat.succ_descFactorial_succ (avail.length - 1) s
      rw [h1] at h2
      rw [h2] at hcur
      exact hcur
    have hchoice : cur / (avail.length - 1).descFactorial s < avail.length :=
      (Nat.div_lt_iff_lt_mul hpor).mpr hmul
    have hget : avail.get? (cur / (avail.length - 1).descFactorial s)
        = some (avail.get ⟨cur / (avail.length - 1).descFactorial s, hchoice⟩) :=
      List.get?_eq_get hchoice
    rw [specDecodeAux_succ_of_get avail s cur _ hget] at h
    rcases Option.map_eq_some'.mp h with ⟨l', hl', rfl⟩
    have hlen' : (avail.eraseIdx (cur / (avail.length - 1).descFactorial s)).length
        = avail.length - 1 := by
      rw [List.length_eraseIdx, if_pos hchoice]
    have hcur' : cur % (avail.length - 1).descFactorial s
        < Nat.descFactorial
            (avail.eraseIdx (cur / (avail.length - 1).descFactorial s)).length s := by
      rw [hlen']
      exact Nat.mod_lt _ hpor
    have hnd' : (avail.eraseIdx (cur / (avail.length - 1).descFactorial s)).Nodup :=
      List.Nodup.sublist (List.eraseIdx_sublist avail _) hnd
    have hs' : s ≤ (avail.eraseIdx (cur / (avail.length - 1).descFactorial s)).length := by
      rw [hlen']
      exact hsub
    have hrank' := ih _ _ _ hnd' hs' hcur' hl'
    simp only [rankAux]
    have hx : List.indexOf (avail.get ⟨cur / (avail.length - 1).descFactorial s, hchoice⟩) avail
        = cur / (avail.length - 1).descFactorial s := by
      have h4 := List.indexOf_getElem hnd (cur / (avail.length - 1).descFactorial s) hchoice
      simpa [List.get_eq_getElem] using h4
    have herase : avail.erase (avail.get ⟨cur / (avail.length - 1).descFactorial s, hchoice⟩)
        = avail.eraseIdx (cur / (avail.length - 1).descFactorial s) := by
      have h3 := List.eraseIdx_indexOf_eq_erase
        (avail.get ⟨cur / (avail.length - 1).descFactorial s, hchoice⟩) avail
      rw [hx] at h3
      exact h3.symm
    rw [hx, specDecodeAux_length s _ _ _ hl', herase, hrank']
    have hdm := Nat.div_add_mod cur ((avail.length - 1).descFactorial s)
    have hcomm : cur / (avail.length - 1).descFactorial s * (avail.length - 1).descFactorial s
        = (avail.length - 1).descFactorial s * (cur / (avail.length - 1).descFactorial s) :=
      Nat.mul_comm _ _
    omega

theorem specDecodeAux_lex :
    ∀ (s : Nat) (avail : List Nat) (i j : Nat) (li lj : List Nat),
      List.Sorted (fun a b => a < b) avail → s ≤ avail.length → i < j →
      j < Nat.descFactorial avail.length s →
      specDecodeAux avail s i = some li → specDecodeAux avail s j = some lj →
      List.Lex (fun a b => a < b) li lj := by
  intro s
  induction s with
  | zero =>
    intro avail i j li lj _ _ hij hj _ _
    have hj1 : j < 1 := hj
    omega
  | succ s ih =>
    intro avail i j li lj hsort hs hij hj hi hjj
    have hpos : 0 < avail.length := Nat.lt_of_lt_of_le (Nat.succ_pos s) hs
    have hsub : s ≤ avail.length - 1 := by omega
    have hpor : 0 < (avail.length - 1).descFactorial s := descFactorial_pos hsub
    have hmulj : j < avail.length * (avail.length - 1).descFactorial s := by
      have h1 : avail.length - 1 + 1 = avail.length := Nat.succ_pred_eq_of_pos hpos
      have h2 := Nat.succ_descFactorial_succ (avail.length - 1) s
      rw [h1] at h2
      rw [h2] at hj
      exact hj
    have hcj : j / (avail.length - 1).descFactorial s < avail.length :=
      (Nat.div_lt_iff_lt_mul hpor).mpr hmulj
    have hcile : i / (avail.length - 1).descFactorial s
        ≤ j / (avail.length - 1).descFactorial s :=
      Nat.div_le_div_right (Nat.le_of_lt hij)
    have hci : i / (avail.length - 1).descFactorial s < avail.length :=
      Nat.lt_of_le_of_lt hcile hcj
    have hgeti : avail.get? (i / (avail.length - 1).descFactorial s)
        = some (avail.get ⟨i / (avail.length - 1).descFactorial s, hci⟩) :=
      List.get?_eq_get hci
    have hgetj : avail.get? (j / (avail.length - 1).descFactorial s)
        = some (avail.get ⟨j / (avail.length - 1).descFactorial s, hcj⟩) :=
      List.get?_eq_get hcj
    rw [specDecodeAux_succ_of_get avail s i _ hgeti] at hi
    rw [specDecodeAux_succ_of_get avail s j _ hgetj] at hjj
    rcases Option.map_eq_some'.mp hi with ⟨li', hli', rfl⟩
    rcases Option.map_eq_some'.mp hjj with ⟨lj', hlj', rfl⟩
    rcases Nat.lt_or_ge (i / (avail.length - 1).descFactorial s)
        (j / (avail.length - 1).descFactorial s) with hlt | hge
    · exact List.Lex.rel
        (List.pairwise_iff_get.mp hsort ⟨i / (avail.length - 1).descFactorial s, hci⟩
          ⟨j / (avail.length - 1).descFactorial s, hcj⟩ (Fin.mk_lt_mk.mpr hlt))
    · have hceq : i / (avail.length - 1).descFactorial s
          = j / (avail.length - 1).descFactorial s :=
        Nat.le_antisymm hcile hge
      have hfin : (⟨i / (avail.length - 1).descFactorial s, hci⟩ : Fin avail.length)
          = ⟨j / (avail.length - 1).descFactorial s, hcj⟩ := Fin.ext hceq
      rw [hfin]
      rw [← hceq] at hlj'
      have hdi := Nat.div_add_mod i ((avail.length - 1).descFactorial s)
      have hdj := Nat.div_add_mod j ((avail.length - 1).descFactorial s)
      rw [hceq] at hdi
      have hij' : i % (avail.length - 1).descFactorial s
          < j % (avail.length - 1).descFactorial s := by omega
      have hlen' : (avail.eraseIdx (i / (avail.length - 1).descFactorial s)).length
          = avail.length - 1 := by
        rw [List.length_eraseIdx, if_pos hci]
      have hj' : j % (avail.length - 1).descFactorial s
          < Nat.descFactorial
              (avail.eraseIdx (i / (avail.length - 1).descFactorial s)).length s := by
        rw [hlen']
        exact Nat.mod_lt _ hpor
      have hsort' : List.Sorted (fun a b => a < b)
          (avail.eraseIdx (i / (avail.length - 1).descFactorial s)) :=
        List.Pairwise.sublist (List.eraseIdx_sublist avail _) hsort
      have hs' : s ≤ (avail.eraseIdx (i / (avail.length - 1).descFactorial s)).length := by
        rw [hlen']
        exact hsub
      exact List.Lex.cons (ih _ _ _ _ _ hsort' hs' hij' hj' hli' hlj')

/-! ### Kernel-level corollaries -/

theorem decode_kernel_props (n r i : Nat) (hr : r ≤ n) (hi : i < permutations_count n r) :
    ∃ l, decode_permutation_kernel n r i = some l ∧ decode n r i = l ∧ l.length = r ∧
      l.Nodup ∧ ∀ x ∈ l, x < n := by
  have hi' : i < Nat.descFactorial (List.range n).length r := by
    rw [List.length_range, ← permutations_count_eq_descFactorial]
    exact hi
  have hr' : r ≤ (List.range n).length := by
    rw [List.length_range]
    exact hr
  rcases specDecodeAux_isSome r (List.range n) i hr' hi' with ⟨l, hl⟩
  have hk : decode_permutation_kernel n r i = some l := by
    rw [decode_kernel_eq_specDecode, specDecode, hl]
  refine ⟨l, hk, ?_, specDecodeAux_length r _ _ _ hl, ?_, ?_⟩
  · rw [decode, hk]
    rfl
  · exact (specDecodeAux_mem_nodup r _ _ _ hl).2 (List.nodup_range n)
  · intro x hx
    exact List.mem_range.mp ((specDecodeAux_mem_nodup r _ _ _ hl).1 x hx)

theorem decode_lex (n r i j : Nat) (hr : r ≤ n) (hij : i < j)
    (hj : j < permutations_count n r) :
    List.Lex (fun a b => a < b) (decode n r i) (decode n r j) := by
  have hi : i < permutations_count n r := Nat.lt_trans hij hj
  rcases decode_kernel_props n r i hr hi with ⟨li, hki, hdi, _, _, _⟩
  rcases decode_kernel_props n r j hr hj with ⟨lj, hkj, hdj, _, _, _⟩
  have hli : specDecodeAux (List.range n) r i = some li := by
    have h := decode_kernel_eq_specDecode n r i
    rw [hki, specDecode] at h
    exact h.symm
  have hlj : specDecodeAux (List.range n) r j = some lj := by
    have h := decode_kernel_eq_specDecode n r j
    rw [hkj, specDecode] at h
    exact h.symm
  rw [hdi, hdj]
  exact specDecodeAux_lex r (List.range n) i j li lj (List.sorted_lt_range n)
    (by rw [List.length_range]; exact hr) hij
    (by rw [List.length_range, ← permutations_count_eq_descFactorial]; exact hj) hli hlj

theorem lex_lt_irrefl : ∀ (l : List Nat), ¬ List.Lex (fun a b => a < b) l l := by
  intro l
  induction l with
  | nil => intro h; cases h
  | cons a t ih =>
    intro h
    cases h with
    | rel h => exact absurd h (Nat.lt_irrefl a)
    | cons h => exact ih h

/-! ### Bounds on used-array accesses -/

theorem decodeAccessesAux_lt :
    ∀ (s : Nat) (used : List Bool) (cur remaining : Nat),
      ∀ a ∈ decodeAccessesAux used cur s remaining, a < used.length := by
  intro s
  induction s with
  | zero =>
    intro used cur remaining a ha
    exact absurd ha (List.not_mem_nil a)
  | succ s ih =>
    intro used cur remaining a ha
    simp only [decodeAccessesAux, List.mem_append] at ha
    rcases ha with ha | ha
    · have ha' := List.mem_range.mp ha
      have hcount : scanAccessCount used (cur / permsOfRest remaining (s + 1))
          ≤ used.length := by
        cases hs : scanUnused used (cur / permsOfRest remaining (s + 1)) with
        | none =>
          show (match scanUnused used (cur / permsOfRest remaining (s + 1)) with
                | some idx => idx + 1
                | none => used.length) ≤ used.length
          rw [hs]
        | some idx =>
          have hmem : idx ∈ unusedIndices used := by
            have h2 := scanUnused_eq_get? used (cur / permsOfRest remaining (s + 1))
            rw [hs] at h2
            exact List.get?_mem h2.symm
          have hidx := mem_unusedIndices_lt used idx hmem
          show (match scanUnused used (cur / permsOfRest remaining (s + 1)) with
                | some idx => idx + 1
                | none => used.length) ≤ used.length
          rw [hs]
          show idx + 1 ≤ used.length
          omega
      omega
    · cases hs : scanUnused used (cur / permsOfRest remaining (s + 1)) with
      | none =>
        rw [hs] at ha
        exact absurd ha (List.not_mem_nil a)
      | some idx =>
        rw [hs] at ha
        have := ih (used.set idx true) (cur % permsOfRest remaining (s + 1))
          (remaining - 1) a ha
        rw [List.length_set] at this
        exact this

theorem decodeAccesses_lt (n r i : Nat) : ∀ a ∈ decodeAccesses n r i, a < n := by
  intro a ha
  rcases List.mem_append.mp ha with ha | ha
  · exact List.mem_range.mp ha
  · have := decodeAccessesAux_lt r (List.replicate n false) i n a ha
    rw [List.length_replicate] at this
    exact this

/-! ### Pipeline: chunking is invisible in the output -/

theorem writeLines_eq_append :
    ∀ (lines file : List String), writeLines file lines = file ++ lines := by
  intro lines
  induction lines with
  | nil => intro file; simp [writeLines]
  | cons s rest ih =>
    intro file
    show writeLines (file ++ [s]) rest = file ++ s :: rest
    rw [ih (file ++ [s]), List.append_assoc]
    rfl

theorem foldl_writeLines_eq (g : Nat × Nat → List String) :
    ∀ (l : List (Nat × Nat)) (file : List String),
      l.foldl (fun f os => writeLines f (g os)) file = file ++ (l.map g).flatten := by
  intro l
  induction l with
  | nil => intro file; simp
  | cons os rest ih =>
    intro file
    simp only [List.foldl_cons, List.map_cons, List.flatten_cons]
    rw [writeLines_eq_append, ih, List.append_assoc]

theorem le_blocksFor_mul (size tpb : Nat) (ht : 0 < tpb) :
    size ≤ blocksFor size tpb * tpb := by
  unfold blocksFor
  rcases size with _ | s
  · simp
  · have h1 : s + 1 + tpb - 1 = s + tpb := by omega
    rw [h1, Nat.add_div_right s ht, Nat.add_mul, Nat.one_mul]
    have h2 : tpb * (s / tpb) + s % tpb = s := Nat.div_add_mod s tpb
    have h3 : s % tpb < tpb := Nat.mod_lt _ ht
    have h4 : s / tpb * tpb = tpb * (s / tpb) := Nat.mul_comm _ _
    omega

theorem runKernelChunk_eq (n r offset size tpb : Nat) (ht : 0 < tpb) :
    runKernelChunk n r offset size tpb
      = (List.range size).map (fun j => decode_permutation_kernel n r (offset + j)) := by
  unfold runKernelChunk
  apply List.map_congr_left
  intro j hj
  exact if_pos (Nat.lt_of_lt_of_le (List.mem_range.mp hj) (le_blocksFor_mul size tpb ht))

theorem chunkOffsets_flatten (chunk total : Nat) (hc : 0 < chunk) :
    ∀ (k offset : Nat), total - offset ≤ k →
      ((chunkOffsets chunk total offset).map (fun os => List.range' os.1 os.2)).flatten
        = List.range' offset (total - offset) := by
  intro k
  induction k with
  | zero =>
    intro offset h
    have hno : ¬ offset < total := by omega
    rw [chunkOffsets, dif_neg hno]
    simp [show total - offset = 0 from by omega]
  | succ k ih =>
    intro offset h
    by_cases hlt : offset < total
    · have hs : 0 < min chunk (total - offset) := by omega
      rw [chunkOffsets, dif_pos hlt, dif_pos hs]
      simp only [List.map_cons, List.flatten_cons]
      rw [ih (offset + min chunk (total - offset)) (by omega)]
      have happ := List.range'_append offset (min chunk (total - offset))
        (total - (offset + min chunk (total - offset))) 1
      rw [Nat.one_mul] at happ
      rw [happ]
      congr 1
      omega
    · rw [chunkOffsets, dif_neg hlt]
      simp [show total - offset = 0 from by omega]

theorem chunkOffsets_flatten_zero (chunk total : Nat) (hc : 0 < chunk) :
    ((chunkOffsets chunk total 0).map (fun os => List.range' os.1 os.2)).flatten
      = List.range total := by
  have h := chunkOffsets_flatten chunk total hc total 0 (by omega)
  rw [Nat.sub_zero] at h
  rw [h]
  exact (List.range_eq_range' total).symm

theorem outputLines_eq_map (cs : List Char) (r chunk tpb : Nat)
    (hc : 0 < chunk) (ht : 0 < tpb) :
    outputLines cs r chunk tpb
      = (List.range (permutations_count cs.length r)).map
          (fun i => permString cs (decode_permutation_kernel cs.length r i)) := by
  rw [outputLines, generate_permutations_gpu,
    foldl_writeLines_eq (fun os => chunkLines cs r os.1 os.2 tpb), List.nil_append]
  have hchunklines : ∀ os : Nat × Nat,
      chunkLines cs r os.1 os.2 tpb
        = (List.range' os.1 os.2).map
            (fun i => permString cs (decode_permutation_kernel cs.length r i)) := by
    intro os
    rw [chunkLines, runKernelChunk_eq _ _ _ _ _ ht, List.map_map,
      List.range'_eq_map_range os.1 os.2, List.map_map]
    apply List.map_congr_left
    intro j hj
    rfl
  have hmapeq : (chunkOffsets chunk (permutations_count cs.length r) 0).map
      (fun os => chunkLines cs r os.1 os.2 tpb)
      = (chunkOffsets chunk (permutations_count cs.length r) 0).map
          (fun os => (List.range' os.1 os.2).map
            (fun i => permString cs (decode_permutation_kernel cs.length r i))) :=
    List.map_congr_left (fun os _ => hchunklines os)
  rw [hmapeq]
  have hcomp : (chunkOffsets chunk (permutations_count cs.length r) 0).map
      (fun os => (List.range' os.1 os.2).map
        (fun i => permString cs (decode_permutation_kernel cs.length r i)))
      = ((chunkOffsets chunk (permutations_count cs.length r) 0).map
          (fun os => List.range' os.1 os.2)).map
          (List.map (fun i => permString cs (decode_permutation_kernel cs.length r i))) := by
    rw [List.map_map]
    rfl
  rw [hcomp, ← List.map_flatten, chunkOffsets_flatten_zero chunk _ hc]

theorem chunkOffsets_single (c total : Nat) (h0 : 0 < total) (hc : total < c) :
    chunkOffsets c total 0 = [(0, total)] := by
  rw [chunkOffsets, dif_pos h0]
  have hmin : min c (total - 0) = total := by
    rw [Nat.sub_zero]
    exact Nat.min_eq_right (Nat.le_of_lt hc)
  rw [hmin, dif_pos h0, Nat.zero_add]
  rw [chunkOffsets, dif_neg (Nat.lt_irrefl total)]

/-! ### Claim theorems -/

/-- C1: for every n, r, i with 1 <= r <= n and 0 <= i < P(n, r), the decoder
(decode_permutation_kernel as a pure function of n, r and the global index)
produces its output by exactly the specified algorithm: all n symbols start
unused; at each position p it computes perms_of_rest as the falling
factorial (remaining-1) * ... * (remaining-(r-p-1)) (1 when p = r-1), sets
choice = i / perms_of_rest and i = i % perms_of_rest, and emits the
choice-th unused symbol position in ascending alphabet order, marking it
used.  Formally the kernel equals the spec-side algorithm specDecode. -/
theorem claim_C1_decoder_follows_spec (n r i : Nat) (h1 : 1 ≤ r) (h2 : r ≤ n)
    (h3 : i < permutations_count n r) :
    decode_permutation_kernel n r i = specDecode n r i :=
  decode_kernel_eq_specDecode n r i

/-- Witness for C1 at n = 3, r = 2, i = 4. -/
theorem claim_C1_witness :
    1 ≤ 2 ∧ 2 ≤ 3 ∧ 4 < permutations_count 3 2
    ∧ decode_permutation_kernel 3 2 4 = specDecode 3 2 4 :=
  ⟨by decide, by decide, by decide,
    claim_C1_decoder_follows_spec 3 2 4 (by decide) (by decide) (by decide)⟩

/-- C2: for every valid n, r, decoding all indices in [0, P(n,r)) yields
P(n,r) pairwise-distinct sequences (injectivity: Nodup of the list of all
decoded rows) which are strictly increasing in lexicographic order as the
index increases (Pairwise Lex over the rows listed in index order). -/
theorem claim_C2_injective_lexicographic (n r : Nat) (h1 : 1 ≤ r) (h2 : r ≤ n) :
    ((List.range (permutations_count n r)).map (decode n r)).length
      = permutations_count n r
    ∧ ((List.range (permutations_count n r)).map (decode n r)).Nodup
    ∧ List.Pairwise (List.Lex (fun a b => a < b))
        ((List.range (permutations_count n r)).map (decode n r)) := by
  have hpair : List.Pairwise (List.Lex (fun a b => a < b))
      ((List.range (permutations_count n r)).map (decode n r)) := by
    rw [List.pairwise_map]
    apply List.Pairwise.imp_of_mem ?_ (List.pairwise_lt_range (permutations_count n r))
    intro i j _ hj hij
    exact decode_lex n r i j h2 hij (List.mem_range.mp hj)
  refine ⟨by simp, ?_, hpair⟩
  exact hpair.imp (fun hlex heq => absurd (heq ▸ hlex) (lex_lt_irrefl _))

/-- Witness for C2 at n = 3, r = 2. -/
theorem claim_C2_witness :
    ((List.range (permutations_count 3 2)).map (decode 3 2)).length
      = permutations_count 3 2
    ∧ ((List.range (permutations_count 3 2)).map (decode 3 2)).Nodup
    ∧ List.Pairwise (List.Lex (fun a b => a < b))
        ((List.range (permutations_count 3 2)).map (decode 3 2)) :=
  claim_C2_injective_lexicographic 3 2 (by decide) (by decide)

/-- C3: for every valid n, r, i, decoding i and then encoding the result
with the inverse algorithm described by the spec (recover each choice as
the rank of the emitted symbol among then-unused symbols and accumulate
choice * perms_of_rest) returns exactly i. -/
theorem claim_C3_round_trip (n r i : Nat) (h1 : 1 ≤ r) (h2 : r ≤ n)
    (h3 : i < permutations_count n r) :
    encode n (decode n r i) = i := by
  rcases decode_kernel_props n r i h2 h3 with ⟨l, hk, hd, _, _, _⟩
  have hl : specDecodeAux (List.range n) r i = some l := by
    have h := decode_kernel_eq_specDecode n r i
    rw [hk, specDecode] at h
    exact h.symm
  rw [hd, encode]
  exact rankAux_specDecodeAux r (List.range n) i l (List.nodup_range n)
    (by rw [List.length_range]; exact h2)
    (by rw [List.length_range, ← permutations_count_eq_descFactorial]; exact h3) hl

/-- Witness for C3 at n = 4, r = 3, i = 17. -/
theorem claim_C3_witness :
    1 ≤ 3 ∧ 3 ≤ 4 ∧ 17 < permutations_count 4 3 ∧ encode 4 (decode 4 3 17) = 17 :=
  ⟨by decide, by decide, by decide,
    claim_C3_round_trip 4 3 17 (by decide) (by decide) (by decide)⟩

/-- C4: for every valid n, r and positive chunk sizes c1, c2 (and positive
parallel widths tpb1, tpb2), the pipeline appends identical line sequences
to the sink, and a chunk size larger than P(n, r) collapses to a single
chunk of exactly P(n, r) indices. -/
theorem claim_C4_chunking_invariance (cs : List Char) (r c1 c2 tpb1 tpb2 : Nat)
    (h1 : 1 ≤ r) (h2 : r ≤ cs.length) (hc1 : 0 < c1) (hc2 : 0 < c2)
    (ht1 : 0 < tpb1) (ht2 : 0 < tpb2) :
    outputLines cs r c1 tpb1 = outputLines cs r c2 tpb2
    ∧ (permutations_count cs.length r < c1 →
        chunkOffsets c1 (permutations_count cs.length r) 0
          = [(0, permutations_count cs.length r)]) := by
  constructor
  · rw [outputLines_eq_map cs r c1 tpb1 hc1 ht1, outputLines_eq_map cs r c2 tpb2 hc2 ht2]
  · intro hbig
    apply chunkOffsets_single
    · rw [permutations_count_eq_descFactorial]
      exact descFactorial_pos h2
    · exact hbig

/-- Witness for C4 with the alphabet ab, r = 2, chunk sizes 7 and 3,
parallel widths 5 and 9. -/
theorem claim_C4_witness :
    outputLines ['a', 'b'] 2 7 5 = outputLines ['a', 'b'] 2 3 9
    ∧ chunkOffsets 7 (permutations_count 2 2) 0 = [(0, permutations_count 2 2)] :=
  ⟨(claim_C4_chunking_invariance ['a', 'b'] 2 7 3 5 9 (by decide) (by decide)
      (by decide) (by decide) (by decide) (by decide)).1,
   (claim_C4_chunking_invariance ['a', 'b'] 2 7 3 5 9 (by decide) (by decide)
      (by decide) (by decide) (by decide) (by decide)).2 (by decide)⟩

/-- C5: for every n >= 1 and 1 <= r <= n, permutations_count(n, r) is the
falling factorial n * (n-1) * ... * (n-r+1) (Nat.descFactorial n r), with
boundaries permutations_count(n, n) = n! and permutations_count(n, 1) = n. -/
theorem claim_C5_permutations_count (n r : Nat) (h0 : 1 ≤ n) (h1 : 1 ≤ r) (h2 : r ≤ n) :
    permutations_count n r = Nat.descFactorial n r
    ∧ permutations_count n n = Nat.factorial n
    ∧ permutations_count n 1 = n := by
  refine ⟨permutations_count_eq_descFactorial n r, ?_, ?_⟩
  · rw [permutations_count_eq_descFactorial, Nat.descFactorial_self]
  · simp [permutations_count, List.range_succ]

/-- Witness for C5 at n = 5, r = 3. -/
theorem claim_C5_witness :
    permutations_count 5 3 = Nat.descFactorial 5 3
    ∧ permutations_count 5 5 = Nat.factorial 5
    ∧ permutations_count 5 1 = 5 :=
  claim_C5_permutations_count 5 3 (by decide) (by decide) (by decide)

/-- C6: with the alphabet abc (n = 3) and any positive chunk size and
parallel width, the pipeline appends for r = 2 exactly the lines
ab, ac, ba, bc, ca, cb in that order, and for r = 3 exactly
abc, acb, bac, bca, cab, cba in that order. -/
theorem claim_C6_abc_output (chunk tpb : Nat) (hc : 0 < chunk) (ht : 0 < tpb) :
    outputLines ['a', 'b', 'c'] 2 chunk tpb = ["ab", "ac", "ba", "bc", "ca", "cb"]
    ∧ outputLines ['a', 'b', 'c'] 3 chunk tpb
        = ["abc", "acb", "bac", "bca", "cab", "cba"] := by
  constructor
  · rw [outputLines_eq_map ['a', 'b', 'c'] 2 chunk tpb hc ht]
    rfl
  · rw [outputLines_eq_map ['a', 'b', 'c'] 3 chunk tpb hc ht]
    rfl

/-- Witness for C6 at the source's own configuration constants. -/
theorem claim_C6_witness :
    outputLines ['a', 'b', 'c'] 2 CHUNK_SIZE threads_per_block
      = ["ab", "ac", "ba", "bc", "ca", "cb"]
    ∧ outputLines ['a', 'b', 'c'] 3 CHUNK_SIZE threads_per_block
        = ["abc", "acb", "bac", "bca", "cab", "cba"] :=
  claim_C6_abc_output CHUNK_SIZE threads_per_block (by decide) (by decide)

/-- C9: under the precondition 1 <= r <= n, i < P(n, r), the decoder's
unguarded inner scan always terminates: every position's scan finds its
symbol among the n tracked cells (the kernel embedding returns some, never
hitting the branch that models the loop running past the array), the
output has the full length r and every emitted position is below n. -/
theorem claim_C9_scan_terminates (n r i : Nat) (h1 : 1 ≤ r) (h2 : r ≤ n)
    (h3 : i < permutations_count n r) :
    ∃ l, decode_permutation_kernel n r i = some l ∧ l.length = r ∧ ∀ x ∈ l, x < n := by
  rcases decode_kernel_props n r i h2 h3 with ⟨l, hk, _, hlen, _, hmem⟩
  exact ⟨l, hk, hlen, hmem⟩

/-- Witness for C9 at n = 3, r = 2, i = 5. -/
theorem claim_C9_witness :
    ∃ l, decode_permutation_kernel 3 2 5 = some l ∧ l.length = 2 ∧ ∀ x ∈ l, x < 3 :=
  claim_C9_scan_terminates 3 2 5 (by decide) (by decide) (by decide)

/-- C10: every run of generate_permutations_gpu only appends: the sink
contents present before the call are preserved unchanged as a prefix, for
every alphabet, r, chunk size and parallel width. -/
theorem claim_C10_append_only (cs : List Char) (r chunk tpb : Nat) (pre : List String) :
    generate_permutations_gpu cs r chunk tpb pre
      = pre ++ generate_permutations_gpu cs r chunk tpb [] := by
  rw [generate_permutations_gpu, generate_permutations_gpu,
    foldl_writeLines_eq (fun os => chunkLines cs r os.1 os.2 tpb),
    foldl_writeLines_eq (fun os => chunkLines cs r os.1 os.2 tpb), List.nil_append]

/-! ### C7 and C8: where the spec deviates from the code -/

theorem generate_run_of_length_lt (cs : List Char) (r chunk tpb : Nat)
    (file : List String) (h : cs.length < r) :
    generate_permutations_run cs r chunk tpb file = Except.ok file := by
  rw [generate_permutations_run, generate_permutations_gpu]
  have h0 : permutations_count cs.length r = 0 := by
    rw [permutations_count_eq_descFactorial]
    exact Nat.descFactorial_eq_zero_iff_lt.mpr h
  rw [h0, chunkOffsets, dif_neg (Nat.lt_irrefl 0)]
  rfl

/-- C7 counterexample: the claim admits every alphabet size n from 1 to 64,
but at n = 64 the kernel's initialization loop writes used[63], and the
local used array has capacity usedCapacity = 63 (valid indices 0..62): the
access index 63 reaches the capacity. -/
theorem claim_C7_counterexample :
    63 ∈ decodeAccesses 64 1 0 ∧ usedCapacity ≤ 63 := by
  constructor
  · decide
  · decide

/-- C7 amended: for every alphabet size n from 1 to 63 inclusive and valid
r, i, the decoder produces a sequence of r distinct positions in [0, n)
(rank i: it equals the spec unranking, see C1 and C2) and every access to
the fixed-capacity used tracking array stays strictly below its capacity
63. -/
theorem claim_C7_amended (n r i : Nat) (h0 : 1 ≤ n) (h63 : n ≤ 63) (h1 : 1 ≤ r)
    (h2 : r ≤ n) (h3 : i < permutations_count n r) :
    (∃ l, decode_permutation_kernel n r i = some l ∧ l.length = r ∧ l.Nodup
      ∧ ∀ x ∈ l, x < n)
    ∧ ∀ a ∈ decodeAccesses n r i, a < usedCapacity := by
  constructor
  · rcases decode_kernel_props n r i h2 h3 with ⟨l, hk, _, hlen, hnd, hmem⟩
    exact ⟨l, hk, hlen, hnd, hmem⟩
  · intro a ha
    have hlt := decodeAccesses_lt n r i a ha
    show a < 63
    omega

/-- Witness for the amended C7 at n = 4, r = 2, i = 7. -/
theorem claim_C7_witness :
    (∃ l, decode_permutation_kernel 4 2 7 = some l ∧ l.length = 2 ∧ l.Nodup
      ∧ ∀ x ∈ l, x < 4)
    ∧ ∀ a ∈ decodeAccesses 4 2 7, a < usedCapacity :=
  claim_C7_amended 4 2 7 (by decide) (by decide) (by decide) (by decide) (by decide)

/-- C8 counterexample: the claim says a request with r > n is rejected with
a fatal ConfigurationError before the pipeline writes anything; in the
source no configuration validation exists at all, and with the alphabet
abc (n = 3), r = 4, chunk size 10, the call completes normally with the
ok outcome and an empty sink instead of raising any error. -/
theorem claim_C8_counterexample :
    generate_permutations_run ['a', 'b', 'c'] 4 10 256 [] = Except.ok [] :=
  generate_run_of_length_lt ['a', 'b', 'c'] 4 10 256 [] (by decide)

/-- C8 amended: the source performs no configuration validation: a request
with r > n is not rejected and raises no ConfigurationError; instead
permutations_count(n, r) = 0, the chunk loop never runs, nothing is
appended, and the call completes normally with the sink unchanged.
(A chunk size of 0 is likewise not rejected; in the source the chunk loop
then never advances and the call never returns.) -/
theorem claim_C8_amended (cs : List Char) (r chunk tpb : Nat) (file : List String)
    (h : cs.length < r) :
    generate_permutations_run cs r chunk tpb file = Except.ok file :=
  generate_run_of_length_lt cs r chunk tpb file h

/-- Witness for the amended C8 at the alphabet ab, r = 3. -/
theorem claim_C8_witness :
    (2 : Nat) < 3
    ∧ generate_permutations_run ['a', 'b'] 3 5 32 ["keep"] = Except.ok ["keep"] :=
  ⟨by decide, claim_C8_amended ['a', 'b'] 3 5 32 ["keep"] (by decide)⟩
